import Mathlib

/-!
# Verification of `src/lang/function.js` (Prototype `Function` extensions)

Shallow embedding of the callable-transformer module.  JavaScript values are
modelled by the inductive type `Val`; since functions are first-class values,
the closures that the module constructs (`bind`, `curry`, `bindAsEventListener`,
`delay`'s timeout thunk, `wrap`, `methodize`) are constructors of `Val` carrying
exactly the data the corresponding JS closure captures.  The behaviour of a
closure is given by the interpreter `invoke`, which follows each closure body
from the source until it reaches an opaque host callable (`Val.base`), where it
reports the call that would be performed (`BaseCall`: target, execution context
and argument list).  Numbers are modelled as rationals (the claims use only
small decimal literals; IEEE rounding is irrelevant to them), and the ambient
`window.event` value is threaded through `invoke` as an explicit parameter.
-/

namespace PrototypeFunction

/-- JavaScript values.  The first six constructors are ordinary data values;
the remaining constructors are the callables relevant to the module: opaque
host functions (`base`, identified by a number standing for reference
identity) and the closures created by the module's own operations, each
carrying exactly the variables the JS closure captures. -/
inductive Val : Type where
  /-- the `undefined` value -/
  | undef : Val
  /-- the `null` value -/
  | null : Val
  /-- a boolean -/
  | bool : Bool → Val
  /-- a number (modelled as a rational) -/
  | num : ℚ → Val
  /-- a string -/
  | str : String → Val
  /-- an opaque non-callable object, identified by reference id -/
  | obj : Nat → Val
  /-- an opaque host callable, identified by reference id -/
  | base : Nat → Val
  /-- the closure returned by `bind` (either shape; it captures
  `__method = m`, `context` and the preset `args`) -/
  | bindWrapper : Val → Val → List Val → Val
  /-- the closure returned by `curry` (captures `__method = m` and `args`) -/
  | curryWrapper : Val → List Val → Val
  /-- the closure returned by `bindAsEventListener` (captures `__method = m`,
  `context` and the preset `args`) -/
  | belWrapper : Val → Val → List Val → Val
  /-- the timeout thunk built by `delay` (captures `__method = m` and `args`) -/
  | delayThunk : Val → List Val → Val
  /-- the closure returned by `wrap` (captures `__method = m` and `wrapper`) -/
  | wrapWrapper : Val → Val → Val
  /-- the closure returned by `methodize` (captures `__method = m`) -/
  | methodized : Val → Val

/-- `Object.isUndefined(x)`, i.e. `typeof x === "undefined"`. -/
def isUndefined : Val → Bool
  | .undef => true
  | _ => false

/-- JavaScript truthiness (`if (x)` / `x || y`).  `0`, `""`, `false`, `null`
and `undefined` are falsy; objects and functions are truthy.  (The model's
rationals have no `NaN`; none of the claims involve it.) -/
def truthy : Val → Bool
  | .undef => false
  | .null => false
  | .bool b => b
  | .num q => q != 0
  | .str s => s != ""
  | _ => true

/-- The `a || b` expression (value-returning disjunction). -/
def jsOr (a b : Val) : Val := if truthy a then a else b

/-- JavaScript array index assignment `a[i] = v`: in-place update when `i`
is in bounds, otherwise the array grows to length `i + 1` (intermediate
slots read as `undefined`). -/
def jsSetIdx (a : List Val) (i : Nat) (v : Val) : List Val :=
  if i < a.length then a.set i v
  else a ++ List.replicate (i - a.length) Val.undef ++ [v]

/-- The body of `update`'s `while (length--)` loop: the iteration with
counter value `l + 1` executes `array[arrayLength + l] = args[l]` and
continues with counter `l`. -/
def updateLoop (arrayLength : Nat) (args : List Val) : List Val → Nat → List Val
  | array, 0 => array
  | array, l + 1 =>
      updateLoop arrayLength args (jsSetIdx array (arrayLength + l) (args.getD l Val.undef)) l

/-- `update(array, args)` from the source: writes `args[length]` at index
`array.length + length` for `length` from `args.length - 1` down to `0`,
mutating (here: rebuilding) `array`, and returns it. -/
def update (array args : List Val) : List Val :=
  updateLoop array.length args array args.length

/-- `merge(array, args)` from the source: copies `array`
(`slice.call(array, 0)`; copying an immutable list is the identity) and
applies `update` to the copy. -/
def merge (array args : List Val) : List Val :=
  update array args

/-- Setting an index that falls in the left part of an append. -/
theorem set_append_of_lt (as bs : List Val) (i : Nat) (v : Val) (h : i < as.length) :
    (as ++ bs).set i v = as.set i v ++ bs := by
  induction as generalizing i with
  | nil => simp at h
  | cons a as ih =>
      cases i with
      | zero => simp
      | succ n =>
          have h' : n < as.length := Nat.lt_of_succ_lt_succ h
          show a :: (as ++ bs).set n v = a :: (as.set n v ++ bs)
          rw [ih n h']

/-- Setting the index right after the left part of an append. -/
theorem set_append_len_add (as bs : List Val) (i : Nat) (v : Val) :
    (as ++ bs).set (as.length + i) v = as ++ bs.set i v := by
  induction as with
  | nil => simp
  | cons a as ih => simp [List.set, Nat.succ_add, ih]

/-- Invariant of `update`'s loop: if the array currently holds the original
`a`, then `l` placeholder slots, then the already-written tail of `args`,
running the remaining `l` iterations produces `a ++ args`. -/
theorem updateLoop_inv (a args : List Val) :
    ∀ l, l ≤ args.length →
      updateLoop a.length args (a ++ (List.replicate l Val.undef ++ args.drop l)) l
        = a ++ args := by
  intro l
  induction l with
  | zero => intro _; simp [updateLoop]
  | succ l ih =>
      intro hl
      have hlt : l < args.length := Nat.lt_of_succ_le hl
      have harr :
          jsSetIdx (a ++ (List.replicate (l + 1) Val.undef ++ args.drop (l + 1)))
              (a.length + l) (args.getD l Val.undef)
            = a ++ (List.replicate l Val.undef ++ args.drop l) := by
        have hlen :
            (a ++ (List.replicate (l + 1) Val.undef ++ args.drop (l + 1))).length
              = a.length + ((l + 1) + (args.length - (l + 1))) := by
          simp [List.length_append]
        have hidx : a.length + l
            < (a ++ (List.replicate (l + 1) Val.undef ++ args.drop (l + 1))).length := by
          rw [hlen]; omega
        have hrep : (List.replicate (l + 1) Val.undef ++ args.drop (l + 1)).set l
              (args.getD l Val.undef)
            = List.replicate l Val.undef ++ args.drop l := by
          have h1 : (List.replicate (l + 1) Val.undef).length = l + 1 := by simp
          have h2 : l < (List.replicate (l + 1) Val.undef).length := by simp
          rw [set_append_of_lt _ _ _ _ h2]
          have h3 : List.replicate (l + 1) Val.undef
              = List.replicate l Val.undef ++ [Val.undef] := List.replicate_succ' ..
          have h4 : (List.replicate (l + 1) Val.undef).set l (args.getD l Val.undef)
              = List.replicate l Val.undef ++ [args.getD l Val.undef] := by
            rw [h3]
            have h6 := set_append_len_add (List.replicate l Val.undef) [Val.undef] 0
              (args.getD l Val.undef)
            simp only [Nat.add_zero, List.length_replicate] at h6
            rw [h6]
            rfl
          rw [h4]
          have h5 : args.getD l Val.undef :: args.drop (l + 1) = args.drop l := by
            rw [List.getD_eq_getElem args Val.undef hlt]
            exact (List.drop_eq_getElem_cons hlt).symm
          rw [List.append_assoc, List.singleton_append, h5]
        unfold jsSetIdx
        rw [if_pos hidx, set_append_len_add, hrep]
      calc updateLoop a.length args
              (a ++ (List.replicate (l + 1) Val.undef ++ args.drop (l + 1))) (l + 1)
          = updateLoop a.length args
              (jsSetIdx (a ++ (List.replicate (l + 1) Val.undef ++ args.drop (l + 1)))
                (a.length + l) (args.getD l Val.undef)) l := rfl
        _ = updateLoop a.length args (a ++ (List.replicate l Val.undef ++ args.drop l)) l := by
              rw [harr]
        _ = a ++ args := ih (Nat.le_of_lt hlt)

/-- `update(array, args)` computes the concatenation `array ++ args`. -/
theorem update_eq_append (a args : List Val) : update a args = a ++ args := by
  cases args with
  | nil => simp [update, updateLoop]
  | cons x xs =>
      show updateLoop a.length (x :: xs) a ((x :: xs).length) = a ++ (x :: xs)
      have hstep :
          jsSetIdx a (a.length + xs.length) ((x :: xs).getD xs.length Val.undef)
            = a ++ (List.replicate xs.length Val.undef ++ (x :: xs).drop xs.length) := by
        have hnlt : ¬ a.length + xs.length < a.length := by omega
        have hlt : xs.length < (x :: xs).length := by simp
        have hdrop : (x :: xs).drop xs.length = [(x :: xs).getD xs.length Val.undef] := by
          rw [List.getD_eq_getElem _ Val.undef hlt]
          rw [List.drop_eq_getElem_cons hlt]
          simp
        unfold jsSetIdx
        rw [if_neg hnlt, hdrop]
        simp
      calc updateLoop a.length (x :: xs) a ((x :: xs).length)
          = updateLoop a.length (x :: xs)
              (jsSetIdx a (a.length + xs.length) ((x :: xs).getD xs.length Val.undef))
              xs.length := rfl
        _ = updateLoop a.length (x :: xs)
              (a ++ (List.replicate xs.length Val.undef ++ (x :: xs).drop xs.length))
              xs.length := by rw [hstep]
        _ = a ++ (x :: xs) := updateLoop_inv a (x :: xs) xs.length (by simp)

/-- `merge(array, args)` computes the concatenation `array ++ args`. -/
theorem merge_eq_append (a args : List Val) : merge a args = a ++ args :=
  update_eq_append a args

/-!
## The operations

Each operation receives its JS `arguments` object as an explicit list (so
`bargs.headD Val.undef` is `arguments[0]`, absent arguments read as
`undefined`, and `bargs.drop 1` is `slice.call(arguments, 1)`).  The callable
the operation is invoked on (`this`) is the parameter `m`.
-/

/-- `Function#bind(context, ...args)`.  Returns `this` unchanged when called
with fewer than two arguments whose first is undefined/absent; otherwise
returns one of the two closures, both represented by `Val.bindWrapper`
(their bodies are distinguished inside `invoke`). -/
def bind (m : Val) (bargs : List Val) : Val :=
  if bargs.length < 2 ∧ isUndefined (bargs.headD Val.undef) then m
  else Val.bindWrapper m (bargs.headD Val.undef) (bargs.drop 1)

/-- `Function#bindAsEventListener(context, ...args)`.  Always returns a
closure capturing the context and the preset arguments. -/
def bindAsEventListener (m : Val) (bargs : List Val) : Val :=
  Val.belWrapper m (bargs.headD Val.undef) (bargs.drop 1)

/-- `Function#curry(...args)`.  `if (!arguments.length) return this`;
otherwise a closure capturing the preset arguments (context left dynamic). -/
def curry (m : Val) (cargs : List Val) : Val :=
  if cargs.length = 0 then m else Val.curryWrapper m cargs

/-- What `delay` hands to `window.setTimeout`: the zero-argument thunk `fn`
and the millisecond delay `timeout * 1000`. -/
structure ScheduleRequest where
  fnThunk : Val
  timeoutMs : Option ℚ

/-- JavaScript numeric coercion of `timeout * 1000` as used by `delay`.
`none` stands for `NaN`; only numeric timeouts matter to the claims. -/
def jsTimes1000 : Val → Option ℚ
  | .num q => some (q * 1000)
  | .bool b => some (if b then 1000 else 0)
  | .null => some 0
  | _ => none

/-- `Function#delay(timeout, ...args)`.  Builds the timeout thunk (both
`args.length` branches of the source invoke `__method` on `__method` itself
with `args`, represented by `Val.delayThunk`) and passes it to the host
scheduler together with `timeout * 1000`. -/
def delay (m : Val) (dargs : List Val) : ScheduleRequest :=
  ⟨Val.delayThunk m (dargs.drop 1), jsTimes1000 (dargs.headD Val.undef)⟩

/-- `Function#defer(...args)`: forwards to `delay`, placing `0.01` in front
of the invocation arguments (`update([0.01], arguments)`), or calling
`delay(0.01)` when there are none. -/
def defer (m : Val) (dargs : List Val) : ScheduleRequest :=
  if dargs.length ≠ 0 then delay m (update [Val.num (1 / 100)] dargs)
  else delay m [Val.num (1 / 100)]

/-- `Function#wrap(wrapper)`: returns a closure capturing `__method` and
`wrapper`. -/
def wrap (m wrapper : Val) : Val :=
  Val.wrapWrapper m wrapper

/-- The property state of a callable object.  The module writes exactly one
property of a callable (`this._methodized = ...`, in `methodize`); all other
properties are collected opaquely in `others` and are never touched. -/
structure FnProps where
  _methodized : Option Val
  others : List (String × Val)

/-- `Function#methodize()`.  `props` is the property state of the callable
`m` the operation is invoked on.  `if (this._methodized) return
this._methodized` (the slot, when set, always holds a function, which is
truthy); otherwise create the closure, store it in the slot and return it. -/
def methodize (m : Val) (props : FnProps) : FnProps × Val :=
  match props._methodized with
  | some cached => (props, cached)
  | none =>
      ({ props with _methodized := some (Val.methodized m) }, Val.methodized m)

/-!
## The interpreter

`invoke wev f c xs` follows the body of the closure `f` when invoked with
execution context `c` and argument list `xs`, until it reaches an opaque host
callable, and reports the resulting host call (target id, execution context,
arguments).  `wev` is the ambient `window.event` value.  Invoking a
non-callable value yields `none` (a `TypeError` in JS).  A plain JS call
`f(x)` (no receiver) is modelled with context `undefined` (the pre-ES5
sloppy-mode callee sees the global object; the module never inspects it).
-/

/-- A call on an opaque host callable: target identity, execution context,
argument list. -/
structure BaseCall where
  target : Nat
  context : Val
  args : List Val

/-- The interpreter.  Each closure case is the body of the corresponding
closure in the source, with `arguments.length` tests kept as in the source. -/
def invoke (wev : Val) : Val → Val → List Val → Option BaseCall
  | .base id, c, xs => some ⟨id, c, xs⟩
  | .bindWrapper m context args, _, xs =>
      if args.length ≠ 0 then
        invoke wev m context (if xs.length ≠ 0 then merge args xs else args)
      else
        if xs.length ≠ 0 then invoke wev m context xs else invoke wev m context []
  | .curryWrapper m args, c, xs =>
      invoke wev m c (if xs.length ≠ 0 then merge args xs else args)
  | .belWrapper m context args, _, xs =>
      if args.length ≠ 0 then
        invoke wev m context (update [jsOr (xs.headD Val.undef) wev] args)
      else invoke wev m context [jsOr (xs.headD Val.undef) wev]
  | .delayThunk m args, _, _ =>
      if args.length ≠ 0 then invoke wev m m args else invoke wev m m []
  | .wrapWrapper m w, c, xs =>
      if xs.length ≠ 0 then invoke wev w c (update [bind m [c]] xs)
      else invoke wev w c [bind m [c]]
  | .methodized m, c, xs =>
      if xs.length ≠ 0 then invoke wev m Val.null (update [c] xs)
      else invoke wev m Val.undef [c]
  | _, _, _ => none

/-!
## `argumentNames`

`argumentNames` works on the callable's textual representation (a string,
modelled as `List Char`):

```
this.toString().match(/^[\s\(]*function[^(]*\(([^)]*)\)/)[1]
  .replace(/\/\/.*?[\r\n]|\/\*(?:.|[\r\n])*?\*\//g, '')
  .replace(/\s+/g, '').split(',')
```

The three regexes are deterministic (each quantified class is disjoint from
what follows it), so they are modelled by direct scanners.
-/

/-- JavaScript `\s` on the ASCII range (space, tab, newline, carriage
return, vertical tab, form feed; the declaration texts considered here are
ASCII). -/
def jsIsSpace (c : Char) : Bool :=
  c = ' ' || c = '\t' || c = '\n' || c = '\r' || c = '\x0b' || c = '\x0c'

/-- Consume the literal `pat` from the front of the input, returning the
rest; `none` when the input does not start with `pat`. -/
def dropLit : List Char → List Char → Option (List Char)
  | [], s => some s
  | _ :: _, [] => none
  | p :: ps, c :: cs => if p = c then dropLit ps cs else none

/-- Split at the first occurrence of `t`: returns the part before it and
the part after it, `none` when `t` does not occur.  This is the
deterministic reading of `[^t]*t` in the match regex. -/
def splitAtFirst (t : Char) : List Char → Option (List Char × List Char)
  | [] => none
  | c :: cs =>
      if c = t then some ([], cs)
      else
        match splitAtFirst t cs with
        | some (before, after) => some (c :: before, after)
        | none => none

/-- The match `/^[\s\(]*function[^(]*\(([^)]*)\)/` applied to the source
text: skip leading whitespace and parentheses, consume the literal
`function`, skip to the first `(`, and capture everything up to the first
`)`.  `none` when the text does not have this shape (`match` returns
`null` and the subsequent `[1]` throws). -/
def matchParams (src : List Char) : Option (List Char) :=
  match dropLit ("function".toList) (src.dropWhile (fun c => jsIsSpace c || c = '(')) with
  | none => none
  | some s2 =>
      match splitAtFirst '(' s2 with
      | none => none
      | some (_, s3) =>
          match splitAtFirst ')' s3 with
          | none => none
          | some (cap, _) => some cap

/-- For the `//` comment branch `\/\/.*?[\r\n]`: drop everything up to and
including the first line terminator; `none` when there is none (the branch
then fails to match). -/
def dropThroughNewline : List Char → Option (List Char)
  | [] => none
  | c :: cs => if c = '\r' || c = '\n' then some cs else dropThroughNewline cs

/-- For the block comment branch `\/\*(?:.|[\r\n])*?\*\/`: drop everything
up to and including the first `*/`; `none` when there is none. -/
def dropThroughStarSlash : List Char → Option (List Char)
  | [] => none
  | '*' :: '/' :: cs => some cs
  | _ :: cs => dropThroughStarSlash cs

/-- One fuelled pass of the global comment-removing replace: at each
position, remove a line comment (only when terminated by a line break) or a
block comment (only when terminated by `*/`), mirroring the regex
alternation; otherwise keep the character.  The fuel is an upper bound on
the number of scanned positions, so `fuel = input length` never runs out. -/
def stripCommentsFuel : Nat → List Char → List Char
  | 0, s => s
  | _ + 1, [] => []
  | fuel + 1, '/' :: '/' :: cs =>
      match dropThroughNewline cs with
      | some cs' => stripCommentsFuel fuel cs'
      | none => '/' :: stripCommentsFuel fuel ('/' :: cs)
  | fuel + 1, '/' :: '*' :: cs =>
      match dropThroughStarSlash cs with
      | some cs' => stripCommentsFuel fuel cs'
      | none => '/' :: stripCommentsFuel fuel ('*' :: cs)
  | fuel + 1, c :: cs => c :: stripCommentsFuel fuel cs

/-- `.replace(/\/\/.*?[\r\n]|\/\*(?:.|[\r\n])*?\*\//g, '')`. -/
def stripComments (s : List Char) : List Char :=
  stripCommentsFuel s.length s

/-- `.split(',')` on a string: `""` splits to `[""]`, separators at the ends
produce empty segments. -/
def splitOnComma : List Char → List (List Char)
  | [] => [[]]
  | ',' :: cs => [] :: splitOnComma cs
  | c :: cs =>
      match splitOnComma cs with
      | s :: ss => (c :: s) :: ss
      | [] => [[c]]

/-- The pipeline `argumentNames` applies to the captured parameter text:
comments are removed, all whitespace is removed, the result is split on
commas, and a single empty segment (`!names[0]` with `names.length == 1`)
yields the empty array. -/
def namesOfCapture (cap : List Char) : List String :=
  let names := splitOnComma ((stripComments cap).filter (fun c => !jsIsSpace c))
  if names.length = 1 ∧ names.headD [] = [] then []
  else names.map (fun l => String.mk l)

/-- `Function#argumentNames()` on the callable's source text: the capture of
the match, handed to the comment/whitespace/split pipeline.  `none` models
the `TypeError` thrown when the match fails. -/
def argumentNames (src : List Char) : Option (List String) :=
  match matchParams src with
  | none => none
  | some cap => some (namesOfCapture cap)

/-!
## The host scheduler

Modelled from the spec: the external scheduler collaborator of §6
(`scheduleAfter(delaySeconds, thunk) -> token`, `cancel(token)`), i.e. the
host's `window.setTimeout` / `window.clearTimeout`, which is not part of the
repository.  Pending one-shot requests are kept in order with their opaque
tokens; `cancel` removes the request with the given token before it is
dispatched, and dispatching runs each pending thunk once (with no receiver
and no arguments, as timer callbacks are invoked). -/
structure SchedulerState where
  pending : List (Nat × ScheduleRequest)
  nextToken : Nat

/-- Modelled from the spec: scheduling hands over the request and returns a
fresh opaque cancellation token. -/
def scheduleAfter (s : SchedulerState) (req : ScheduleRequest) : SchedulerState × Nat :=
  (⟨s.pending ++ [(s.nextToken, req)], s.nextToken + 1⟩, s.nextToken)

/-- Modelled from the spec: cancelling removes the pending request carrying
the token, so it is never dispatched; no callback fires on cancellation. -/
def cancel (s : SchedulerState) (tok : Nat) : SchedulerState :=
  ⟨s.pending.filter (fun p => p.1 ≠ tok), s.nextToken⟩

/-- Tokens of pending requests are always older than the next fresh token
(true of every state reachable from an empty scheduler). -/
def SchedulerWF (s : SchedulerState) : Prop :=
  ∀ p ∈ s.pending, p.1 < s.nextToken

/-- The host calls that dispatching every pending request would perform,
in order: each thunk runs once with no receiver and no arguments. -/
def dispatchCalls (wev : Val) (s : SchedulerState) : List (Option BaseCall) :=
  s.pending.map (fun p => invoke wev p.2.fnThunk Val.undef [])

/-- Running `delay` against the scheduler: build the request and schedule
it, returning the new scheduler state and the token `delay` returns. -/
def delayRun (s : SchedulerState) (m : Val) (dargs : List Val) : SchedulerState × Nat :=
  scheduleAfter s (delay m dargs)

/-!
## Interpreter equations and small helper lemmas
-/

@[simp] theorem invoke_base (wev : Val) (id : Nat) (c : Val) (xs : List Val) :
    invoke wev (Val.base id) c xs = some ⟨id, c, xs⟩ := rfl

@[simp] theorem invoke_bindWrapper (wev m context γ : Val) (args xs : List Val) :
    invoke wev (Val.bindWrapper m context args) γ xs
      = if args.length ≠ 0 then
          invoke wev m context (if xs.length ≠ 0 then merge args xs else args)
        else if xs.length ≠ 0 then invoke wev m context xs
        else invoke wev m context [] := rfl

@[simp] theorem invoke_curryWrapper (wev m γ : Val) (args xs : List Val) :
    invoke wev (Val.curryWrapper m args) γ xs
      = invoke wev m γ (if xs.length ≠ 0 then merge args xs else args) := rfl

@[simp] theorem invoke_belWrapper (wev m context γ : Val) (args xs : List Val) :
    invoke wev (Val.belWrapper m context args) γ xs
      = if args.length ≠ 0 then
          invoke wev m context (update [jsOr (xs.headD Val.undef) wev] args)
        else invoke wev m context [jsOr (xs.headD Val.undef) wev] := rfl

@[simp] theorem invoke_delayThunk (wev m γ : Val) (args xs : List Val) :
    invoke wev (Val.delayThunk m args) γ xs
      = if args.length ≠ 0 then invoke wev m m args else invoke wev m m [] := rfl

@[simp] theorem invoke_wrapWrapper (wev m w c : Val) (xs : List Val) :
    invoke wev (Val.wrapWrapper m w) c xs
      = if xs.length ≠ 0 then invoke wev w c (update [bind m [c]] xs)
        else invoke wev w c [bind m [c]] := rfl

@[simp] theorem invoke_methodized (wev m c : Val) (xs : List Val) :
    invoke wev (Val.methodized m) c xs
      = if xs.length ≠ 0 then invoke wev m Val.null (update [c] xs)
        else invoke wev m Val.undef [c] := rfl

theorem isUndefined_iff (v : Val) : isUndefined v = true ↔ v = Val.undef := by
  cases v <;> simp [isUndefined]

/-- A `bind` closure is a fresh callable, never the callable it wraps. -/
theorem bindWrapper_ne (m c : Val) (args : List Val) : Val.bindWrapper m c args ≠ m := by
  intro h
  have hs := congrArg sizeOf h
  simp only [Val.bindWrapper.sizeOf_spec] at hs
  omega

/-- A `curry` closure is a fresh callable, never the callable it wraps. -/
theorem curryWrapper_ne (m : Val) (args : List Val) : Val.curryWrapper m args ≠ m := by
  intro h
  have hs := congrArg sizeOf h
  simp only [Val.curryWrapper.sizeOf_spec] at hs
  omega

theorem dropLit_append (p t : List Char) : dropLit p (p ++ t) = some t := by
  induction p with
  | nil => rfl
  | cons c cs ih => simp [dropLit, ih]

theorem splitAtFirst_append (t : Char) (pre post : List Char) (h : t ∉ pre) :
    splitAtFirst t (pre ++ t :: post) = some (pre, post) := by
  induction pre with
  | nil => simp [splitAtFirst]
  | cons c cs ih =>
      have hct : ¬ c = t := fun hc => h (hc ▸ List.mem_cons_self c cs)
      have hmem : t ∉ cs := fun hm => h (List.mem_cons_of_mem c hm)
      simp [splitAtFirst, hct, ih hmem]

/-- The match regex on a well-shaped declaration text: a `function` keyword,
a name free of `(`, then the parenthesized parameter text (free of `)`),
then anything.  The capture is the parameter text. -/
theorem matchParams_decl (nm plist tail : List Char) (hnm : '(' ∉ nm) (hp : ')' ∉ plist) :
    matchParams (("function ".toList) ++ nm ++ ('(' :: plist) ++ (')' :: tail)) = some plist := by
  have hshape : ("function ".toList) ++ nm ++ ('(' :: plist) ++ (')' :: tail)
      = ("function".toList) ++ ((' ' :: nm) ++ '(' :: (plist ++ ')' :: tail)) := by
    show ('f' :: 'u' :: 'n' :: 'c' :: 't' :: 'i' :: 'o' :: 'n' :: ' ' :: [])
          ++ nm ++ ('(' :: plist) ++ (')' :: tail)
        = ('f' :: 'u' :: 'n' :: 'c' :: 't' :: 'i' :: 'o' :: 'n' :: [])
          ++ ((' ' :: nm) ++ '(' :: (plist ++ ')' :: tail))
    simp
  rw [hshape]
  unfold matchParams
  have hdw : List.dropWhile (fun c => jsIsSpace c || c = '(')
        (("function".toList) ++ ((' ' :: nm) ++ '(' :: (plist ++ ')' :: tail)))
      = ("function".toList) ++ ((' ' :: nm) ++ '(' :: (plist ++ ')' :: tail)) := by
    show List.dropWhile (fun c => jsIsSpace c || c = '(')
        ('f' :: (("unction".toList) ++ ((' ' :: nm) ++ '(' :: (plist ++ ')' :: tail)))) = _
    rw [List.dropWhile_cons, if_neg (by decide)]
    rfl
  rw [hdw, dropLit_append]
  have hs1 : splitAtFirst '(' ((' ' :: nm) ++ '(' :: (plist ++ ')' :: tail))
      = some (' ' :: nm, plist ++ ')' :: tail) := by
    refine splitAtFirst_append '(' (' ' :: nm) (plist ++ ')' :: tail) ?_
    intro hmem
    rcases List.mem_cons.mp hmem with h1 | h2
    · exact absurd h1 (by decide)
    · exact hnm h2
  have hs2 : splitAtFirst ')' (plist ++ ')' :: tail) = some (plist, tail) :=
    splitAtFirst_append ')' plist tail hp
  simp only [hs1, hs2]

/-!
## The claims
-/

/-- C1: whenever `bind(ctx, ...ps)` produces a bound callable (i.e. does not
take the no-context no-op path, which requires `ps` empty and `ctx`
undefined), invoking that callable with any caller context `γ` and arguments
`xs` invokes the original callable with execution context fixed to `ctx` and
argument list `merge(ps, xs) = ps ++ xs`; with `ps = []` this is exactly
invoking the original with context `ctx` and arguments `xs`. -/
theorem bind_invokes_with_fixed_context_and_merged_args
    (m ctx wev γ : Val) (ps xs : List Val)
    (h : ¬ (ps = [] ∧ ctx = Val.undef)) :
    bind m (ctx :: ps) = Val.bindWrapper m ctx ps ∧
    merge ps xs = ps ++ xs ∧
    invoke wev (Val.bindWrapper m ctx ps) γ xs = invoke wev m ctx (ps ++ xs) := by
  refine ⟨?_, merge_eq_append ps xs, ?_⟩
  · have hcond :
        ¬ ((ctx :: ps).length < 2 ∧ isUndefined ((ctx :: ps).headD Val.undef) = true) := by
      rintro ⟨h1, h2⟩
      refine h ⟨?_, (isUndefined_iff ctx).mp h2⟩
      have hlen : ps.length = 0 := by
        simp only [List.length_cons] at h1
        omega
      exact List.length_eq_zero.mp hlen
    unfold bind
    rw [if_neg hcond]
    rfl
  · rw [invoke_bindWrapper]
    by_cases hps : ps.length ≠ 0
    · rw [if_pos hps]
      by_cases hxs : xs.length ≠ 0
      · rw [if_pos hxs, merge_eq_append]
      · have hx : xs = [] := List.length_eq_zero.mp (not_not.mp hxs)
        subst hx
        rw [if_neg hxs, List.append_nil]
    · have hp : ps = [] := List.length_eq_zero.mp (not_not.mp hps)
      subst hp
      rw [if_neg hps, List.nil_append]
      by_cases hxs : xs.length ≠ 0
      · rw [if_pos hxs]
      · have hx : xs = [] := List.length_eq_zero.mp (not_not.mp hxs)
        subst hx
        rw [if_neg hxs]

/-- Witness for C1: `f.bind(obj 1, num 2)` invoked with `(num 3)` calls `f`
with context `obj 1` and arguments `(num 2, num 3)`. -/
theorem bind_invokes_with_fixed_context_and_merged_args_witness :
    bind (Val.base 0) (Val.obj 1 :: [Val.num 2])
        = Val.bindWrapper (Val.base 0) (Val.obj 1) [Val.num 2] ∧
    merge [Val.num 2] [Val.num 3] = [Val.num 2] ++ [Val.num 3] ∧
    invoke Val.undef (Val.bindWrapper (Val.base 0) (Val.obj 1) [Val.num 2])
        (Val.obj 9) [Val.num 3]
      = invoke Val.undef (Val.base 0) (Val.obj 1) ([Val.num 2] ++ [Val.num 3]) :=
  bind_invokes_with_fixed_context_and_merged_args (Val.base 0) (Val.obj 1) Val.undef
    (Val.obj 9) [Val.num 2] [Val.num 3] (fun hc => List.cons_ne_nil _ _ hc.1)

/-- C10: `bind` returns the original callable itself exactly when it is
called with fewer than two arguments whose first is absent or undefined;
`bind()` and `bind(undefined)` return the original, while `bind(undefined,
x)` returns a new wrapper that invokes the original with undefined execution
context and merged arguments. -/
theorem bind_no_op_iff_short_call_with_undefined_context
    (m wev γ x : Val) (bargs xs : List Val) :
    (bind m bargs = m ↔ bargs.length < 2 ∧ bargs.headD Val.undef = Val.undef) ∧
    bind m [] = m ∧
    bind m [Val.undef] = m ∧
    bind m [Val.undef, x] = Val.bindWrapper m Val.undef [x] ∧
    invoke wev (Val.bindWrapper m Val.undef [x]) γ xs = invoke wev m Val.undef (x :: xs) := by
  refine ⟨?_, rfl, rfl, rfl, ?_⟩
  · unfold bind
    by_cases hcond : bargs.length < 2 ∧ isUndefined (bargs.headD Val.undef) = true
    · rw [if_pos hcond]
      simp only [true_iff, iff_true]
      exact ⟨hcond.1, (isUndefined_iff _).mp hcond.2⟩
    · rw [if_neg hcond]
      constructor
      · intro hw
        exact absurd hw (bindWrapper_ne m _ _)
      · intro hc
        exact absurd ⟨hc.1, (isUndefined_iff _).mpr hc.2⟩ hcond
  · rw [invoke_bindWrapper]
    rw [if_pos (by simp : ([x] : List Val).length ≠ 0)]
    by_cases hxs : xs.length ≠ 0
    · rw [if_pos hxs, merge_eq_append, List.singleton_append]
    · have hx : xs = [] := List.length_eq_zero.mp (not_not.mp hxs)
      subst hx
      rw [if_neg hxs]

/-- C4: `curry()` with no preset arguments returns the original callable
itself; `curry(...ps)` with presets returns a fresh callable which, invoked
with caller context `γ` and arguments `xs`, calls the original with the
dynamic context `γ` (not one fixed at curry time) and arguments `ps ++ xs`;
in particular `curry(1, 2)` invoked with `(3)` calls the original with
`(1, 2, 3)`. -/
theorem curry_presets_args_keeps_dynamic_context
    (m wev γ : Val) (cargs xs : List Val) (h : cargs ≠ []) :
    curry m [] = m ∧
    curry m cargs = Val.curryWrapper m cargs ∧
    curry m cargs ≠ m ∧
    invoke wev (Val.curryWrapper m cargs) γ xs = invoke wev m γ (cargs ++ xs) ∧
    invoke wev (curry m [Val.num 1, Val.num 2]) γ [Val.num 3]
      = invoke wev m γ [Val.num 1, Val.num 2, Val.num 3] := by
  have hlen : ¬ cargs.length = 0 := fun hc => h (List.length_eq_zero.mp hc)
  have hcw : curry m cargs = Val.curryWrapper m cargs := by
    unfold curry
    rw [if_neg hlen]
  refine ⟨rfl, hcw, ?_, ?_, rfl⟩
  · rw [hcw]
    exact curryWrapper_ne m cargs
  · rw [invoke_curryWrapper]
    by_cases hxs : xs.length ≠ 0
    · rw [if_pos hxs, merge_eq_append]
    · have hx : xs = [] := List.length_eq_zero.mp (not_not.mp hxs)
      subst hx
      rw [if_neg hxs, List.append_nil]

/-- Witness for C4 at preset list `[num 1, num 2]` and invocation `[num 3]`. -/
theorem curry_presets_args_keeps_dynamic_context_witness :
    curry (Val.base 0) [] = Val.base 0 ∧
    curry (Val.base 0) [Val.num 1, Val.num 2]
        = Val.curryWrapper (Val.base 0) [Val.num 1, Val.num 2] ∧
    curry (Val.base 0) [Val.num 1, Val.num 2] ≠ Val.base 0 ∧
    invoke Val.undef (Val.curryWrapper (Val.base 0) [Val.num 1, Val.num 2])
        (Val.obj 7) [Val.num 3]
      = invoke Val.undef (Val.base 0) (Val.obj 7) ([Val.num 1, Val.num 2] ++ [Val.num 3]) ∧
    invoke Val.undef (curry (Val.base 0) [Val.num 1, Val.num 2]) (Val.obj 7) [Val.num 3]
      = invoke Val.undef (Val.base 0) (Val.obj 7) [Val.num 1, Val.num 2, Val.num 3] :=
  curry_presets_args_keeps_dynamic_context (Val.base 0) Val.undef (Val.obj 7)
    [Val.num 1, Val.num 2] [Val.num 3] (List.cons_ne_nil _ _)

/-- C2: `methodize` is idempotent per callable instance: with the callable's
property state threaded through, a second `methodize()` returns exactly the
callable the first call returned (the cached one); and invoking the produced
callable with receiver `r` and arguments `xs` calls the original with
argument list `r :: xs` and a neutral execution context (`null` via `apply`,
or the receiver-less plain call, modelled as `undefined`). -/
theorem methodize_idempotent_and_prepends_receiver
    (m wev r : Val) (p : FnProps) (xs : List Val) :
    (methodize m (methodize m p).1).2 = (methodize m p).2 ∧
    (methodize m ⟨none, p.others⟩).2 = Val.methodized m ∧
    invoke wev (Val.methodized m) r xs
      = invoke wev m (if xs.length = 0 then Val.undef else Val.null) (r :: xs) ∧
    ((if xs.length = 0 then Val.undef else Val.null) = Val.undef ∨
      (if xs.length = 0 then Val.undef else Val.null) = Val.null) := by
  refine ⟨?_, rfl, ?_, ?_⟩
  · cases hp : p._methodized with
    | some cached => simp [methodize, hp]
    | none => simp [methodize, hp]
  · rw [invoke_methodized]
    by_cases hxs : xs.length = 0
    · have hx : xs = [] := List.length_eq_zero.mp hxs
      subst hx
      simp
    · rw [if_pos (by omega : xs.length ≠ 0), update_eq_append, if_neg hxs,
        List.singleton_append]
  · by_cases hxs : xs.length = 0
    · exact Or.inl (if_pos hxs)
    · exact Or.inr (if_neg hxs)

/-!
## Property-state transformers for the frame claim

The source body of every operation except `methodize` contains no assignment
to `this` (the callable operated on), so threading the callable's property
state through such an operation passes it along unchanged; `methodize` is
the single exception (`this._methodized = ...`).
-/

/-- `argumentNames` as a transformer on the callable's property state. -/
def argumentNamesS (src : List Char) (props : FnProps) : FnProps × Option (List String) :=
  (props, argumentNames src)

/-- `bind` as a transformer on the callable's property state. -/
def bindS (m : Val) (props : FnProps) (bargs : List Val) : FnProps × Val :=
  (props, bind m bargs)

/-- `bindAsEventListener` as a transformer on the callable's property state. -/
def bindAsEventListenerS (m : Val) (props : FnProps) (bargs : List Val) : FnProps × Val :=
  (props, bindAsEventListener m bargs)

/-- `curry` as a transformer on the callable's property state. -/
def curryS (m : Val) (props : FnProps) (cargs : List Val) : FnProps × Val :=
  (props, curry m cargs)

/-- `delay` as a transformer on the callable's property state. -/
def delayS (m : Val) (props : FnProps) (dargs : List Val) : FnProps × ScheduleRequest :=
  (props, delay m dargs)

/-- `defer` as a transformer on the callable's property state. -/
def deferS (m : Val) (props : FnProps) (dargs : List Val) : FnProps × ScheduleRequest :=
  (props, defer m dargs)

/-- `wrap` as a transformer on the callable's property state. -/
def wrapS (m : Val) (props : FnProps) (w : Val) : FnProps × Val :=
  (props, wrap m w)

/-- C3 counterexample: the first `methodize()` call on a callable with an
empty cache slot modifies a property of that callable — the `_methodized`
field changes from unset to the cached closure — so it is not true that
every operation leaves the source callable unchanged. -/
theorem methodize_mutates_cache_slot :
    ((methodize (Val.base 0) ⟨none, []⟩).1)._methodized
      ≠ ((⟨none, []⟩ : FnProps))._methodized := by
  simp [methodize]

/-- C3 amended: `argumentNames`, `bind`, `bindAsEventListener`, `curry`,
`delay`, `defer` and `wrap` leave the source callable completely unchanged
(stated for an arbitrary property state `p`); `methodize` leaves every other
property unchanged and writes only the single `_methodized` cache slot, and
only when that slot is still empty — on a callable with an empty slot and
arbitrary other properties, the resulting state is exactly the old one with
just the slot populated, and on a callable whose slot already holds any
cached value, `methodize` changes nothing at all.  Every property state is
of one of the two quantified forms, so both methodize cases are covered in
full generality. -/
theorem operations_modify_only_methodize_cache_slot
    (m w cached : Val) (p : FnProps) (others : List (String × Val)) (src : List Char)
    (bargs eargs cargs dargs fargs : List Val) :
    (argumentNamesS src p).1 = p ∧
    (bindS m p bargs).1 = p ∧
    (bindAsEventListenerS m p eargs).1 = p ∧
    (curryS m p cargs).1 = p ∧
    (delayS m p dargs).1 = p ∧
    (deferS m p fargs).1 = p ∧
    (wrapS m p w).1 = p ∧
    ((methodize m p).1).others = p.others ∧
    methodize m ⟨none, others⟩
      = (⟨some (Val.methodized m), others⟩, Val.methodized m) ∧
    methodize m ⟨some cached, others⟩ = (⟨some cached, others⟩, cached) := by
  refine ⟨rfl, rfl, rfl, rfl, rfl, rfl, rfl, ?_, rfl, rfl⟩
  cases hp : p._methodized with
  | some c => simp [methodize, hp]
  | none => simp [methodize, hp]

/-- C5: invoking the callable produced by `wrap(w)` with caller context `c`
and arguments `xs` calls `w` with execution context `c` and argument list
whose first element is `__method.bind(c)` — the context-bound version of the
original — followed by `xs`; with no arguments `w` receives exactly that
bound original as sole argument.  When `w` is an opaque host callable, the
whole invocation performs exactly that one call on `w` (so an original
distinct from `w` is never called unless `w` itself invokes its first
argument); and the bound first argument, invoked with any arguments `ys`,
calls the original with context `c` and arguments `ys` (for any actual
receiver `c`, i.e. `c` not undefined). -/
theorem wrap_passes_bound_original_and_calls_only_wrapper
    (m w wev c γ : Val) (j : Nat) (xs ys : List Val) (hc : c ≠ Val.undef) :
    invoke wev (wrap m w) c xs = invoke wev w c (bind m [c] :: xs) ∧
    invoke wev (wrap m w) c [] = invoke wev w c [bind m [c]] ∧
    invoke wev (wrap m (Val.base j)) c xs = some ⟨j, c, bind m [c] :: xs⟩ ∧
    invoke wev (bind m [c]) γ ys = invoke wev m c ys := by
  have hmain : ∀ w' : Val, invoke wev (wrap m w') c xs = invoke wev w' c (bind m [c] :: xs) := by
    intro w'
    show invoke wev (Val.wrapWrapper m w') c xs = _
    rw [invoke_wrapWrapper]
    by_cases hxs : xs.length ≠ 0
    · rw [if_pos hxs, update_eq_append, List.singleton_append]
    · have hx : xs = [] := List.length_eq_zero.mp (not_not.mp hxs)
      subst hx
      rw [if_neg hxs]
  refine ⟨hmain w, ?_, ?_, ?_⟩
  · show invoke wev (Val.wrapWrapper m w) c [] = _
    rw [invoke_wrapWrapper, if_neg (by simp)]
  · rw [hmain (Val.base j), invoke_base]
  · have hbind : bind m [c] = Val.bindWrapper m c [] := by
      unfold bind
      rw [if_neg (fun hcond => hc ((isUndefined_iff c).mp hcond.2))]
      rfl
    rw [hbind, invoke_bindWrapper, if_neg (by simp)]
    by_cases hys : ys.length ≠ 0
    · rw [if_pos hys]
    · have hy : ys = [] := List.length_eq_zero.mp (not_not.mp hys)
      subst hy
      rw [if_neg hys]

/-- Witness for C5 with original `base 0`, wrapper `base 1`, caller context
`obj 2` and argument `num 5`. -/
theorem wrap_passes_bound_original_and_calls_only_wrapper_witness :
    invoke Val.undef (wrap (Val.base 0) (Val.base 1)) (Val.obj 2) [Val.num 5]
        = invoke Val.undef (Val.base 1) (Val.obj 2)
            (bind (Val.base 0) [Val.obj 2] :: [Val.num 5]) ∧
    invoke Val.undef (wrap (Val.base 0) (Val.base 1)) (Val.obj 2) []
        = invoke Val.undef (Val.base 1) (Val.obj 2) [bind (Val.base 0) [Val.obj 2]] ∧
    invoke Val.undef (wrap (Val.base 0) (Val.base 1)) (Val.obj 2) [Val.num 5]
        = some ⟨1, Val.obj 2, bind (Val.base 0) [Val.obj 2] :: [Val.num 5]⟩ ∧
    invoke Val.undef (bind (Val.base 0) [Val.obj 2]) (Val.obj 3) [Val.num 6]
        = invoke Val.undef (Val.base 0) (Val.obj 2) [Val.num 6] :=
  wrap_passes_bound_original_and_calls_only_wrapper (Val.base 0) (Val.base 1) Val.undef
    (Val.obj 2) (Val.obj 3) 1 [Val.num 5] [Val.num 6] (fun hh => Val.noConfusion hh)

/-- C7: `defer(...xs)` builds exactly the request `delay(0.01, ...xs)` —
the fixed minimal delay `0.01` seconds in front of the unchanged arguments —
and therefore receives from the scheduler exactly the token `delay` would
return. -/
theorem defer_forwards_to_delay_with_minimal_timeout
    (m : Val) (xs : List Val) (s : SchedulerState) :
    defer m xs = delay m (Val.num (1 / 100) :: xs) ∧
    scheduleAfter s (defer m xs) = scheduleAfter s (delay m (Val.num (1 / 100) :: xs)) := by
  have hfwd : defer m xs = delay m (Val.num (1 / 100) :: xs) := by
    unfold defer
    by_cases hxs : xs.length ≠ 0
    · rw [if_pos hxs, update_eq_append, List.singleton_append]
    · have hx : xs = [] := List.length_eq_zero.mp (not_not.mp hxs)
      subst hx
      rw [if_neg hxs]
  exact ⟨hfwd, by rw [hfwd]⟩

/-- C8: the callable produced by `bindAsEventListener(ctx, ...ps)` takes one
incoming event `e` (event objects are truthy) and invokes the original on
execution context `ctx` with `e` prepended to the presets `ps`; when the
event argument is absent, the ambient `window.event` value is used in its
place. -/
theorem bindAsEventListener_prepends_event_or_ambient
    (m ctx wev γ e : Val) (ps rest : List Val) (he : truthy e = true) :
    invoke wev (bindAsEventListener m (ctx :: ps)) γ (e :: rest) = invoke wev m ctx (e :: ps) ∧
    invoke wev (bindAsEventListener m (ctx :: ps)) γ [] = invoke wev m ctx (wev :: ps) := by
  have hbel : bindAsEventListener m (ctx :: ps) = Val.belWrapper m ctx ps := rfl
  have hor : jsOr e wev = e := by
    unfold jsOr
    rw [if_pos he]
  have habsent : jsOr Val.undef wev = wev := rfl
  constructor
  · rw [hbel, invoke_belWrapper]
    by_cases hps : ps.length ≠ 0
    · rw [if_pos hps]
      show invoke wev m ctx (update [jsOr e wev] ps) = _
      rw [hor, update_eq_append, List.singleton_append]
    · have hp : ps = [] := List.length_eq_zero.mp (not_not.mp hps)
      subst hp
      rw [if_neg hps]
      show invoke wev m ctx [jsOr e wev] = _
      rw [hor]
  · rw [hbel, invoke_belWrapper]
    by_cases hps : ps.length ≠ 0
    · rw [if_pos hps]
      show invoke wev m ctx (update [jsOr Val.undef wev] ps) = _
      rw [habsent, update_eq_append, List.singleton_append]
    · have hp : ps = [] := List.length_eq_zero.mp (not_not.mp hps)
      subst hp
      rw [if_neg hps]
      show invoke wev m ctx [jsOr Val.undef wev] = _
      rw [habsent]

/-- Witness for C8 with event `obj 5` (truthy), context `obj 1`, preset
`num 2` and ambient event `obj 7`. -/
theorem bindAsEventListener_prepends_event_or_ambient_witness :
    invoke (Val.obj 7) (bindAsEventListener (Val.base 0) (Val.obj 1 :: [Val.num 2]))
        Val.undef (Val.obj 5 :: [])
      = invoke (Val.obj 7) (Val.base 0) (Val.obj 1) (Val.obj 5 :: [Val.num 2]) ∧
    invoke (Val.obj 7) (bindAsEventListener (Val.base 0) (Val.obj 1 :: [Val.num 2]))
        Val.undef []
      = invoke (Val.obj 7) (Val.base 0) (Val.obj 1) (Val.obj 7 :: [Val.num 2]) :=
  bindAsEventListener_prepends_event_or_ambient (Val.base 0) (Val.obj 1) (Val.obj 7)
    Val.undef (Val.obj 5) [Val.num 2] [] rfl

@[simp] theorem cancel_pending (s : SchedulerState) (tok : Nat) :
    (cancel s tok).pending = s.pending.filter (fun p => p.1 ≠ tok) := rfl

@[simp] theorem delayRun_fst_pending (s : SchedulerState) (m : Val) (dargs : List Val) :
    (delayRun s m dargs).1.pending = s.pending ++ [(s.nextToken, delay m dargs)] := rfl

@[simp] theorem delayRun_snd (s : SchedulerState) (m : Val) (dargs : List Val) :
    (delayRun s m dargs).2 = s.nextToken := rfl

/-- C9: `delay(s, ...xs)` hands the scheduler a one-shot thunk that, when
dispatched (with whatever context and arguments the timer host uses),
invokes the original callable with execution context fixed to the callable
itself and exactly the arguments `xs = dargs.drop 1`; `delay` returns the
scheduler's token for that request; and cancelling that token before
dispatch restores the pending queue to what it was before, so dispatching
everything still pending performs exactly the calls it would have performed
without the `delay` — the delayed callable is never called. -/
theorem delay_schedules_cancellable_self_context_call
    (wev m γ : Val) (ys dargs : List Val) (s : SchedulerState) (hwf : SchedulerWF s) :
    invoke wev (delay m dargs).fnThunk γ ys = invoke wev m m (dargs.drop 1) ∧
    (delayRun s m dargs).2 = s.nextToken ∧
    (cancel (delayRun s m dargs).1 (delayRun s m dargs).2).pending = s.pending ∧
    dispatchCalls wev (cancel (delayRun s m dargs).1 (delayRun s m dargs).2)
      = dispatchCalls wev s := by
  have hcanc :
      (cancel (delayRun s m dargs).1 (delayRun s m dargs).2).pending = s.pending := by
    rw [cancel_pending, delayRun_fst_pending, delayRun_snd, List.filter_append]
    have h2 : [(s.nextToken, delay m dargs)].filter (fun p => p.1 ≠ s.nextToken) = [] := by
      simp
    have h1 : s.pending.filter (fun p => p.1 ≠ s.nextToken) = s.pending := by
      rw [List.filter_eq_self]
      intro p hp
      simpa using Nat.ne_of_lt (hwf p hp)
    rw [h1, h2, List.append_nil]
  refine ⟨?_, rfl, hcanc, ?_⟩
  · show invoke wev (Val.delayThunk m (dargs.drop 1)) γ ys = _
    rw [invoke_delayThunk]
    by_cases hd : (dargs.drop 1).length ≠ 0
    · rw [if_pos hd]
    · have h0 : dargs.drop 1 = [] := List.length_eq_zero.mp (not_not.mp hd)
      rw [if_neg hd, h0]
  · unfold dispatchCalls
    rw [hcanc]

/-- Witness for C9: `f.delay(0.1, "x")` against the empty scheduler. -/
theorem delay_schedules_cancellable_self_context_call_witness :
    invoke Val.undef (delay (Val.base 0) [Val.num (1 / 10), Val.str ("x")]).fnThunk
        Val.undef []
      = invoke Val.undef (Val.base 0) (Val.base 0)
          ([Val.num (1 / 10), Val.str ("x")].drop 1) ∧
    (delayRun ⟨[], 0⟩ (Val.base 0) [Val.num (1 / 10), Val.str ("x")]).2
      = (⟨[], 0⟩ : SchedulerState).nextToken ∧
    (cancel (delayRun ⟨[], 0⟩ (Val.base 0) [Val.num (1 / 10), Val.str ("x")]).1
        (delayRun ⟨[], 0⟩ (Val.base 0) [Val.num (1 / 10), Val.str ("x")]).2).pending
      = (⟨[], 0⟩ : SchedulerState).pending ∧
    dispatchCalls Val.undef
        (cancel (delayRun ⟨[], 0⟩ (Val.base 0) [Val.num (1 / 10), Val.str ("x")]).1
          (delayRun ⟨[], 0⟩ (Val.base 0) [Val.num (1 / 10), Val.str ("x")]).2)
      = dispatchCalls Val.undef ⟨[], 0⟩ :=
  delay_schedules_cancellable_self_context_call Val.undef (Val.base 0) Val.undef []
    [Val.num (1 / 10), Val.str ("x")] ⟨[], 0⟩
    (fun p hp => absurd hp (List.not_mem_nil p))

/-- C6: for a callable declared as `function <name>(a, b, c) ...` (any name
free of parentheses), `argumentNames` returns exactly `["a", "b", "c"]` in
declaration order; for a zero-parameter declaration `function <name>() ...`
it returns the empty array (not `[""]`); and comments and whitespace inside
the parameter list are stripped before splitting on commas. -/
theorem argumentNames_reads_declared_parameter_names
    (nm bodyA bodyB : List Char) (h : '(' ∉ nm) :
    argumentNames (("function ".toList) ++ nm ++ ('(' :: ("a, b, c".toList))
        ++ (')' :: bodyA)) = some ["a", "b", "c"] ∧
    argumentNames (("function ".toList) ++ nm ++ ('(' :: ([] : List Char))
        ++ (')' :: bodyB)) = some [] ∧
    argumentNames (("function f(a /* x = 1 */, b, // trailing comment\n c)  ").toList)
      = some ["a", "b", "c"] := by
  refine ⟨?_, ?_, by rfl⟩
  · unfold argumentNames
    rw [matchParams_decl nm ("a, b, c".toList) bodyA h (by decide)]
    rfl
  · unfold argumentNames
    rw [matchParams_decl nm [] bodyB h (by decide)]
    rfl

/-- Witness for C6 with name `f` and a concrete body. -/
theorem argumentNames_reads_declared_parameter_names_witness :
    argumentNames (("function ".toList) ++ ("f".toList) ++ ('(' :: ("a, b, c".toList))
        ++ (')' :: (" return a;".toList))) = some ["a", "b", "c"] ∧
    argumentNames (("function ".toList) ++ ("f".toList) ++ ('(' :: ([] : List Char))
        ++ (')' :: ([] : List Char))) = some [] ∧
    argumentNames (("function f(a /* x = 1 */, b, // trailing comment\n c)  ").toList)
      = some ["a", "b", "c"] :=
  argumentNames_reads_declared_parameter_names ("f".toList) (" return a;".toList) []
    (by decide)

end PrototypeFunction
